import Mathlib

/-!
Shallow embedding of the repository `prisoner` (src/src/lib.rs): an iterated
Prisoner's Dilemma tournament library with an Elo-style rating pool.

Conventions of the embedding:
* Rust machine integers are modelled by `Nat`/`Int` with their operations'
  exact semantics: the `usize -> isize` casts and the `isize`/`usize`
  arithmetic of the match loop wrap two's-complement modulo `2^64`
  (`usizeToIsize`, `isizeWrap`, and an explicit `% 2^64` on the normalizing
  product) as a release build does — a debug build panics exactly where a
  wrap other than the defined casts is non-trivial; the rating update's
  `saturating_add_signed` is modelled explicitly with clamping at `0` and
  `usize::MAX = 2^64 - 1`.
* Rust `f64` scores are modelled by `ℚ` (every value appearing in the claims
  settled here is a small dyadic rational, on which `f64` arithmetic is exact).
* The random generator `impl Rng` is modelled as a pair of oracle streams
  (one of booleans for `gen_bool`, one of naturals for `gen_range`/sampling)
  together with a draw counter; every behaviour of a real generator is some
  pair of streams, and all theorems quantify over the streams.
* The floating-point correction of `EloPool::play` (lines 272-274:
  `tanh` of the rating difference, times `k_factor`, cast to `isize`) is not
  exactly representable over `ℚ`; the pool step is therefore parameterised by
  an oracle `corr` computing the correction from the two ratings and the
  score.  The pool claims settled here quantify over every such oracle; the
  cast of line 274 itself is modelled separately and exactly by
  `correctionOf`.
-/

/-- Rust `Choice` (lib.rs lines 10-14): the two possible moves. -/
inductive Choice : Type where
  | Defect : Choice
  | Collab : Choice
deriving DecidableEq, Repr

/-- Rust `impl From<bool> for Choice` (lib.rs lines 15-22). -/
def choiceOfBool : Bool → Choice
  | true => Choice.Collab
  | false => Choice.Defect

/-- Rust `Weights` (lib.rs lines 25-30): payoffs for the four move combinations. -/
structure Weights : Type where
  defect_defect : Nat
  defect_collab : Nat × Nat
  collab_collab : Nat
deriving DecidableEq, Repr

/-- Rust `Weights::outcome` (lib.rs lines 34-41). -/
def Weights.outcome (w : Weights) (ch1 ch2 : Choice) : Nat × Nat :=
  match ch1, ch2 with
  | Choice.Defect, Choice.Defect => (w.defect_defect, w.defect_defect)
  | Choice.Defect, Choice.Collab => (w.defect_collab.1, w.defect_collab.2)
  | Choice.Collab, Choice.Defect => (w.defect_collab.2, w.defect_collab.1)
  | Choice.Collab, Choice.Collab => (w.collab_collab, w.collab_collab)

/-- Rust `Weights::max_diff` (lib.rs lines 44-47). -/
def Weights.max_diff (w : Weights) : Nat :=
  max w.defect_collab.1 w.defect_collab.2 - min w.defect_collab.1 w.defect_collab.2

/-- Rust `impl Default for Weights` (lib.rs lines 49-57). -/
def Weights.default : Weights :=
  { defect_defect := 2, defect_collab := (3, 0), collab_collab := 1 }

/-- The random generator: oracle streams plus a draw counter (see the file
header).  `bools` answers `gen_bool` draws, `nats` answers `gen_range` and
distribution sampling draws. -/
structure RngState : Type where
  bools : Nat → Bool
  nats : Nat → Nat
  k : Nat

/-- Rust `rng.gen_bool(p)`: one draw from the boolean stream.  The probability
argument only shapes the distribution, not the set of possible outcomes, so
the model lets the stream decide. -/
def RngState.genBool (r : RngState) (_p : ℚ) : Bool × RngState :=
  (r.bools r.k, { r with k := r.k + 1 })

/-- Rust `rng.gen_range(0..n)`: one draw from the natural stream, reduced mod `n`
so the result is in range (every in-range behaviour is some stream). -/
def RngState.genRange (r : RngState) (n : Nat) : Nat × RngState :=
  (r.nats r.k % n, { r with k := r.k + 1 })

/-- Rust `self.turn_distr.sample(rng)`: one raw draw from the natural stream
(the turn-count distribution `TD : Distribution<usize>` is arbitrary, so any
natural number is a possible sample). -/
def RngState.sampleNat (r : RngState) : Nat × RngState :=
  (r.nats r.k, { r with k := r.k + 1 })

/-- Rust `PlayerFactory` (lib.rs lines 61-71): the strategy catalog entries.
Probability parameters are modelled by `ℚ`. -/
inductive PlayerFactory : Type where
  | Defector : PlayerFactory
  | Collaborator : PlayerFactory
  | Random : ℚ → PlayerFactory
  | RandomFixed : ℚ → PlayerFactory
  | TitForTat : PlayerFactory
  | TitFotTatS : PlayerFactory
  | Mean : PlayerFactory
  | Pavlov : PlayerFactory
  | Grim : PlayerFactory
deriving DecidableEq, Repr

/-- Rust `Player` (lib.rs lines 143-152): the per-match agents; `Grim` carries its
trigger flag. -/
inductive Player : Type where
  | Defector : Player
  | Collaborator : Player
  | Random : ℚ → Player
  | TitForTat : Player
  | TitForTat2 : Player
  | Mean : Player
  | Pavlov : Player
  | Grim : Bool → Player
deriving DecidableEq, Repr

/-- Rust `PlayerFactory::gen` (lib.rs lines 73-88): instantiate an agent, possibly
consuming randomness (`RandomFixed` draws its fixed move). -/
def PlayerFactory.gen : PlayerFactory → Weights → RngState → Player × RngState
  | PlayerFactory.Defector, _, r => (Player.Defector, r)
  | PlayerFactory.Collaborator, _, r => (Player.Collaborator, r)
  | PlayerFactory.Random p, _, r => (Player.Random p, r)
  | PlayerFactory.TitForTat, _, r => (Player.TitForTat, r)
  | PlayerFactory.TitFotTatS, _, r => (Player.TitForTat2, r)
  | PlayerFactory.RandomFixed p, _, r =>
      let br := r.genBool p
      (if br.1 then Player.Collaborator else Player.Defector, br.2)
  | PlayerFactory.Mean, _, r => (Player.Mean, r)
  | PlayerFactory.Pavlov, _, r => (Player.Pavlov, r)
  | PlayerFactory.Grim, _, r => (Player.Grim false, r)

/-- The fraction of `Collab` moves in a history (the `Mean` agent's bias,
lib.rs lines 161-175): `0.5` on an empty history, else collaborations divided
by length. -/
def meanBias (h : List Choice) : ℚ :=
  if h.isEmpty then 1 / 2
  else ((h.filter (fun c => c = Choice.Collab)).length : ℚ) / (h.length : ℚ)

/-- Rust `Player::play` (lib.rs lines 154-188).  Histories are Lean lists with the
oldest move first (Rust `Vec::push` appends), so Rust `first()` is `head?` and
`last()` is `getLast?`.  `hist.1` is the opponent's history.  Returns the
move, the updated agent (only `Grim` mutates), and the updated rng. -/
def Player.play : Player → List Choice × List Choice → RngState →
    Choice × Player × RngState
  | Player.Defector, _, r => (Choice.Defect, Player.Defector, r)
  | Player.Collaborator, _, r => (Choice.Collab, Player.Collaborator, r)
  | Player.Random p, _, r =>
      let br := r.genBool p
      (choiceOfBool br.1, Player.Random p, br.2)
  | Player.TitForTat, hist, r =>
      (hist.2.head?.getD Choice.Collab, Player.TitForTat, r)
  | Player.TitForTat2, hist, r =>
      (hist.2.head?.getD Choice.Defect, Player.TitForTat2, r)
  | Player.Mean, hist, r =>
      let br := r.genBool (meanBias hist.2)
      (choiceOfBool br.1, Player.Mean, br.2)
  | Player.Pavlov, hist, r =>
      (choiceOfBool (decide (hist.1.getLast? = hist.2.getLast?)), Player.Pavlov, r)
  | Player.Grim defected, hist, r =>
      let defected := if hist.2.getLast? = some Choice.Defect then true else defected
      (if defected then Choice.Defect else Choice.Collab, Player.Grim defected, r)

/-- The mutable state of the match loop of `play` (lib.rs lines 199-212):
the two histories, the signed point accumulator, both agents, and the rng. -/
structure MatchState : Type where
  hist1 : List Choice
  hist2 : List Choice
  points : Int
  p1 : Player
  p2 : Player
  rng : RngState

/-- Rust `o as isize` for `o : usize`: reinterpret the low 64 bits in two's
complement.  This cast is defined (never panicking) in every build profile. -/
def usizeToIsize (n : Nat) : Int :=
  if n % 2 ^ 64 < 2 ^ 63 then ((n % 2 ^ 64 : Nat) : Int)
  else ((n % 2 ^ 64 : Nat) : Int) - 2 ^ 64

/-- Two's-complement wrap into the `isize` range `[-2^63, 2^63 - 1]`: the
result of an `isize` addition or subtraction in a release build (a debug
build panics exactly where this differs from the exact result). -/
def isizeWrap (z : Int) : Int :=
  (z + 2 ^ 63) % 2 ^ 64 - 2 ^ 63

/-- One iteration of the `for` loop of `play` (lib.rs lines 205-212):
both agents move simultaneously (each sees the histories as of before the
turn), the moves are appended, and the payoff differential is accumulated.
Line 211 is `points += o1 as isize - o2 as isize` with `points : isize`:
the two casts wrap by definition, and the subtraction and the addition are
`isize` operations — wrapping in release builds (modelled here), panicking
in debug builds where the wrap would be non-trivial. -/
def matchStep (w : Weights) (s : MatchState) : MatchState :=
  let a1 := s.p1.play (s.hist1, s.hist2) s.rng
  let a2 := s.p2.play (s.hist2, s.hist1) a1.2.2
  let o := w.outcome a1.1 a2.1
  { hist1 := s.hist1 ++ [a1.1]
    hist2 := s.hist2 ++ [a2.1]
    points := isizeWrap (s.points + isizeWrap (usizeToIsize o.1 - usizeToIsize o.2))
    p1 := a1.2.1
    p2 := a2.2.1
    rng := a2.2.2 }

/-- The whole loop: `n` iterations of `matchStep`. -/
def matchRun (w : Weights) (s : MatchState) : Nat → MatchState
  | 0 => s
  | n + 1 => matchRun w (matchStep w s) n

/-- The initial state of `play` (lib.rs lines 199-203): empty histories, zero
points, both agents freshly instantiated (in order, threading the rng). -/
def matchInit (p1 p2 : PlayerFactory) (w : Weights) (r : RngState) : MatchState :=
  let g1 := p1.gen w r
  let g2 := p2.gen w g1.2
  { hist1 := [], hist2 := [], points := 0, p1 := g1.1, p2 := g2.1, rng := g2.2 }

/-- Rust `play` (lib.rs lines 192-215) together with its final rng: run the
match and return `points as f64 / (weights.max_diff() * turns) as f64`.  The
`usize` product wraps modulo `2^64` in a release build (a debug build panics
where the wrap is non-trivial); the `f64` division is modelled as the exact
rational quotient of the machine-computed operands — the program first rounds
each operand to `f64` and then divides with correct rounding, and every
concrete score appearing in the claims settled here is exact in `f64`, while
the interval bounds are stable under the monotone rounding. -/
def playFull (p1 p2 : PlayerFactory) (w : Weights) (turns : Nat) (r : RngState) :
    ℚ × RngState :=
  let s := matchRun w (matchInit p1 p2 w r) turns
  ((s.points : ℚ) / (((w.max_diff * turns) % 2 ^ 64 : Nat) : ℚ), s.rng)

/-- Rust `play` (lib.rs lines 192-215): the normalized match score. -/
def play (p1 p2 : PlayerFactory) (w : Weights) (turns : Nat) (r : RngState) : ℚ :=
  (playFull p1 p2 w turns r).1

/-- The accumulated signed payoff differential of two histories: for each
turn, `payoff_to_A - payoff_to_B`, summed. -/
def diffSum (w : Weights) (h1 h2 : List Choice) : Int :=
  (List.zipWith (fun a b => ((w.outcome a b).1 : Int) - ((w.outcome a b).2 : Int))
    h1 h2).sum

/-- A concrete rng for witnesses: `gen_bool` always answers `false`, the
natural stream enumerates `0, 1, 2, ...`. -/
def rng0 : RngState :=
  { bools := fun _ => false, nats := fun i => i, k := 0 }

/-- Rust `usize::MAX` on the 64-bit targets the crate builds for. -/
def USIZE_MAX : Nat := 2 ^ 64 - 1

/-- Rust `isize::MAX`. -/
def ISIZE_MAX : Int := 2 ^ 63 - 1

/-- Rust `isize::MIN`. -/
def ISIZE_MIN : Int := -(2 ^ 63)

/-- Rust `a.saturating_add_signed(c)` on `usize`: add, clamping into
`[0, usize::MAX]` instead of wrapping. -/
def saturatingAddSigned (a : Nat) (c : Int) : Nat :=
  (max 0 (min ((a : Int) + c) (USIZE_MAX : Int))).toNat

/-- The two rating writes of `EloPool::play` (lib.rs lines 276-277): the
first selected player gains the correction, the second loses it, each
saturating. -/
def updateRatings (a b : Nat) (c : Int) : Nat × Nat :=
  (saturatingAddSigned a c, saturatingAddSigned b (-c))

/-- Rust `EloPool` (lib.rs lines 217-229).  The turn-count distribution is part of
the rng model (`RngState.sampleNat`); `scale` and `k_factor` are carried for
fidelity but consumed only by the floating-point correction, which the step
takes as an oracle (see the file header). -/
structure EloPool : Type where
  players : List (PlayerFactory × Nat)
  weights : Weights
  scale : ℚ
  k_factor : ℚ
deriving DecidableEq, Repr

/-- Rust `PlayerFactory::all` (lib.rs lines 122-138). -/
def PlayerFactory.all : List PlayerFactory :=
  [PlayerFactory.Defector, PlayerFactory.Collaborator,
   PlayerFactory.Random (1 / 2), PlayerFactory.Random (9 / 10),
   PlayerFactory.Random (1 / 10), PlayerFactory.RandomFixed (1 / 2),
   PlayerFactory.RandomFixed (9 / 10), PlayerFactory.RandomFixed (1 / 10),
   PlayerFactory.TitForTat, PlayerFactory.TitFotTatS, PlayerFactory.Mean,
   PlayerFactory.Pavlov, PlayerFactory.Grim]

/-- Rust `EloPool::new` (lib.rs lines 234-251). -/
def EloPool.new (w : Weights) (starting_pts : Nat) (scale k_factor : ℚ) : EloPool :=
  { players := PlayerFactory.all.map (fun p => (p, starting_pts))
    weights := w
    scale := scale
    k_factor := k_factor }

/-- The rejection-sampling loop of `EloPool::play` (lib.rs lines 259-262):
draw `i2`, redrawing while it equals `i1`.  The Rust loop is unbounded, so
the model takes fuel counting the draws; `none` models the (probability-zero
with a fair generator) diverging run. -/
def drawDistinct (n i1 : Nat) (r : RngState) : Nat → Option (Nat × RngState)
  | 0 => none
  | fuel + 1 =>
      let d := r.genRange n
      if d.1 = i1 then drawDistinct n i1 d.2 fuel else some d

/-- Rust `EloPool::play` (lib.rs lines 253-278), the pool's `step`: no-op below 2
entries, else select two distinct entries, sample a turn count, play the
match, and apply the saturating rating updates.  `corr` is the correction
oracle standing for lines 272-274 (arguments: the two selected ratings and
the match score); `fuel` bounds the rejection-sampling loop. -/
def EloPool.play (corr : Nat → Nat → ℚ → Int) (pool : EloPool) (r : RngState)
    (fuel : Nat) : Option (EloPool × RngState) :=
  if pool.players.length < 2 then some (pool, r)
  else
    let n := pool.players.length
    let d1 := r.genRange n
    let i1 := d1.1
    match drawDistinct n i1 d1.2 fuel with
    | none => none
    | some (i2, r2) =>
        let dt := r2.sampleNat
        let e1 := pool.players.getD i1 (PlayerFactory.Defector, 0)
        let e2 := pool.players.getD i2 (PlayerFactory.Defector, 0)
        let sc := playFull e1.1 e2.1 pool.weights dt.1 dt.2
        let c := corr e1.2 e2.2 sc.1
        let u := updateRatings e1.2 e2.2 c
        some ({ pool with players :=
                  (pool.players.set i1 (e1.1, u.1)).set i2 (e2.1, u.2) }, sc.2)

/-- The pool component of a step (drops the final rng, which contains oracle
streams and has no decidable equality). -/
def stepPool (corr : Nat → Nat → ℚ → Int) (pool : EloPool) (r : RngState)
    (fuel : Nat) : Option EloPool :=
  (EloPool.play corr pool r fuel).map Prod.fst

/-- A sequence of pool steps, threading pool and rng; one fuel per call. -/
def stepSeq (corr : Nat → Nat → ℚ → Int) (pool : EloPool) (r : RngState) :
    List Nat → Option (EloPool × RngState)
  | [] => some (pool, r)
  | fuel :: rest =>
      match EloPool.play corr pool r fuel with
      | none => none
      | some (p, r2) => stepSeq corr p r2 rest

/-- The pool component of a step sequence. -/
def stepSeqPool (corr : Nat → Nat → ℚ → Int) (pool : EloPool) (r : RngState)
    (fs : List Nat) : Option EloPool :=
  (stepSeq corr pool r fs).map Prod.fst

/-- The `as isize` cast of lib.rs line 274 on a real value: truncation toward
zero, saturating at the `isize` bounds. -/
def castIsize (q : ℚ) : Int :=
  max ISIZE_MIN (min (if 0 ≤ q then ⌊q⌋ else -⌊-q⌋) ISIZE_MAX)

/-- The correction of lib.rs line 274, `(k_factor * (outcome - expected)) as
isize`, as a function of `k_factor`, the score and the expected value. -/
def correctionOf (k s e : ℚ) : Int :=
  castIsize (k * (s - e))

/-- All ratings of a pool are representable `usize` values. -/
def validRatings (pool : EloPool) : Prop :=
  ∀ e ∈ pool.players, e.2 ≤ USIZE_MAX

/-- A constant correction oracle for concrete runs. -/
def corr0 : Nat → Nat → ℚ → Int := fun _ _ _ => 1

/-- A correction oracle answering `41`, used to exhibit saturation. -/
def corr41 : Nat → Nat → ℚ → Int := fun _ _ _ => 41

/-- A two-entry pool at the default starting rating. -/
def pool0 : EloPool :=
  { players := [(PlayerFactory.Defector, 700), (PlayerFactory.Collaborator, 700)]
    weights := Weights.default, scale := 100, k_factor := 16 }

/-- A one-entry pool (the no-op case of the pool step). -/
def pool1 : EloPool :=
  { players := [(PlayerFactory.Defector, 700)]
    weights := Weights.default, scale := 100, k_factor := 16 }

/-- A two-entry pool with a small second rating, where the subtracting
saturating update clamps at zero. -/
def poolC2 : EloPool :=
  { players := [(PlayerFactory.Defector, 0), (PlayerFactory.Collaborator, 30)]
    weights := Weights.default, scale := 100, k_factor := 16 }


/-- C1: the claim says TitForTat (and TitForTatDefectFirst) mirror the
opponent's immediately preceding move, i.e. the last element of the
opponent's history — which is also what the code's own `description()`
string says ("answer with the last move").  The code instead reads
`hist.1.first()`: on the opponent history `[Collab, Defect]`, whose last
element is `Defect`, both agents return `Collab` (the first element). -/
theorem c1_titfortat_returns_first_not_last :
    (Player.play Player.TitForTat
      ([Choice.Collab, Choice.Collab], [Choice.Collab, Choice.Defect]) rng0).1
      = Choice.Collab ∧
    (Player.play Player.TitForTat2
      ([Choice.Collab, Choice.Collab], [Choice.Collab, Choice.Defect]) rng0).1
      = Choice.Collab ∧
    [Choice.Collab, Choice.Defect].getLast? = some Choice.Defect ∧
    Choice.Collab ≠ Choice.Defect := by
  refine ⟨rfl, rfl, rfl, by decide⟩

/-- C9: the payoff function is symmetric under swapping the two choices with
roles preserved: `outcome(Defect, Collab)` is the component-wise reversal of
`outcome(Collab, Defect)`, and in both mixed cases the defector receives
`defect_collab.1` and the collaborator `defect_collab.2`. -/
theorem c9_outcome_symmetric (w : Weights) :
    w.outcome Choice.Defect Choice.Collab =
      Prod.swap (w.outcome Choice.Collab Choice.Defect) ∧
    w.outcome Choice.Defect Choice.Collab = (w.defect_collab.1, w.defect_collab.2) ∧
    w.outcome Choice.Collab Choice.Defect = (w.defect_collab.2, w.defect_collab.1) := by
  exact ⟨rfl, rfl, rfl⟩

/-- C8: with fewer than two entries, the pool step returns at once, leaving
the pool (and the rng) completely unchanged, for every correction oracle,
rng and fuel. -/
theorem c8_step_noop_below_two (corr : Nat → Nat → ℚ → Int) (pool : EloPool)
    (r : RngState) (fuel : Nat) (h : pool.players.length < 2) :
    EloPool.play corr pool r fuel = some (pool, r) := by
  unfold EloPool.play
  rw [if_pos h]

/-- Witness for C8 on a concrete one-entry pool. -/
theorem c8_step_noop_below_two_witness :
    pool1.players.length < 2 ∧ EloPool.play corr0 pool1 rng0 3 = some (pool1, rng0) :=
  ⟨by decide, c8_step_noop_below_two corr0 pool1 rng0 3 (by decide)⟩

/-- C2, counterexample: the claim asserts the two participants' rating sum is
preserved by every match-playing step, for all rating values and all
corrections.  On the two-entry pool with ratings `(0, 30)` and correction
`41`, the step yields ratings `(41, 0)` — the subtracting update saturates at
`0` — so the sum goes from `30` to `41`. -/
theorem c2_counterexample :
    2 ≤ poolC2.players.length ∧
    (stepPool corr41 poolC2 rng0 9).map (fun p => (p.players.map Prod.snd).sum)
      = some 41 ∧
    (poolC2.players.map Prod.snd).sum = 30 := by
  refine ⟨by decide, by decide, by decide⟩

/-- C2, amended: the step's two rating writes (`ratingA + c`, `ratingB - c`,
each via `saturating_add_signed`) preserve the participants' rating sum
whenever neither write clamps, i.e. whenever both exact results lie within
`[0, usize::MAX]`. -/
theorem c2_zero_sum_unless_saturated (a b : Nat) (c : Int)
    (ha0 : 0 ≤ (a : Int) + c) (haM : (a : Int) + c ≤ (USIZE_MAX : Int))
    (hb0 : 0 ≤ (b : Int) - c) (hbM : (b : Int) - c ≤ (USIZE_MAX : Int)) :
    (updateRatings a b c).1 + (updateRatings a b c).2 = a + b := by
  unfold updateRatings saturatingAddSigned
  omega

/-- Witness for the amended C2 at the spec's own scenario: ratings `700/700`,
correction `32`, giving `732 + 668 = 1400`. -/
theorem c2_zero_sum_unless_saturated_witness :
    (updateRatings 700 700 32).1 + (updateRatings 700 700 32).2 = 700 + 700 :=
  c2_zero_sum_unless_saturated 700 700 32 (by decide) (by decide) (by decide) (by decide)

/-- C3, counterexample: the claim asserts the correction is the nearest
integer to `k_factor * (score - expected)`.  The cast of line 274 truncates
toward zero instead: at `k_factor = 1`, `score = 3/4 ∈ [-1, 1]`,
`expected = 0 ∈ (-1, 1)`, the code computes `0`, while rounding to the
nearest integer gives `1`. -/
theorem c3_counterexample :
    (-1 ≤ (3 / 4 : ℚ) ∧ (3 / 4 : ℚ) ≤ 1) ∧ (-1 < (0 : ℚ) ∧ (0 : ℚ) < 1) ∧
    correctionOf 1 (3 / 4) 0 = 0 ∧
    round ((1 : ℚ) * (3 / 4 - 0)) = 1 ∧
    correctionOf 1 (3 / 4) 0 ≠ round ((1 : ℚ) * (3 / 4 - 0)) := by
  have harg : (1 : ℚ) * (3 / 4 - 0) = 3 / 4 := by norm_num
  have h0 : correctionOf 1 (3 / 4) 0 = 0 := by
    unfold correctionOf castIsize ISIZE_MIN ISIZE_MAX
    rw [harg, if_pos (by norm_num)]
    norm_num
  have h1 : round ((1 : ℚ) * (3 / 4 - 0)) = 1 := by
    rw [harg]; norm_num [round_eq]
  exact ⟨⟨by norm_num, by norm_num⟩, ⟨by norm_num, by norm_num⟩, h0, h1, by
    rw [h0, h1]; decide⟩

/-- The cast of line 274 on a nonnegative in-range value is the floor. -/
lemma castIsize_eq_floor_of_nonneg (q : ℚ) (hq : 0 ≤ q) (h : q ≤ (ISIZE_MAX : ℚ)) :
    castIsize q = ⌊q⌋ := by
  unfold castIsize
  rw [if_pos hq]
  have h0 : (0 : Int) ≤ ⌊q⌋ := Int.floor_nonneg.mpr hq
  have h1 : ⌊q⌋ ≤ ISIZE_MAX := by
    have h2 := Int.floor_le_floor (α := ℚ) h
    rwa [Int.floor_intCast] at h2
  have hmin : ISIZE_MIN ≤ ⌊q⌋ := by unfold ISIZE_MIN; omega
  rw [min_eq_left h1, max_eq_right hmin]

/-- The cast of line 274 on a negative in-range value is minus the floor of
the negation (truncation toward zero). -/
lemma castIsize_eq_of_neg (q : ℚ) (hq : q < 0) (h : -q ≤ (ISIZE_MAX : ℚ)) :
    castIsize q = -⌊-q⌋ := by
  unfold castIsize
  rw [if_neg (not_le.mpr hq)]
  have h0 : (0 : Int) ≤ ⌊-q⌋ := Int.floor_nonneg.mpr (by linarith)
  have h1 : ⌊-q⌋ ≤ ISIZE_MAX := by
    have h2 := Int.floor_le_floor (α := ℚ) h
    rwa [Int.floor_intCast] at h2
  have hmin : ISIZE_MIN ≤ -⌊-q⌋ := by unfold ISIZE_MIN ISIZE_MAX at *; omega
  have hmax : -⌊-q⌋ ≤ ISIZE_MAX := by unfold ISIZE_MAX at *; omega
  rw [min_eq_left hmax, max_eq_right hmin]

/-- The cast of line 274 is truncation toward zero: its absolute value is
within one below the input's absolute value, never exceeding it, and the sign
is preserved (the product is nonnegative). -/
lemma castIsize_trunc (q : ℚ) (h : |q| ≤ (ISIZE_MAX : ℚ)) :
    |(castIsize q : ℚ)| ≤ |q| ∧ |q| < |(castIsize q : ℚ)| + 1 ∧
    0 ≤ (castIsize q : ℚ) * q := by
  rcases le_or_lt 0 q with hq | hq
  · have hle : q ≤ (ISIZE_MAX : ℚ) := by rwa [abs_of_nonneg hq] at h
    rw [castIsize_eq_floor_of_nonneg q hq hle]
    have h0 : (0 : Int) ≤ ⌊q⌋ := Int.floor_nonneg.mpr hq
    have h0q : (0 : ℚ) ≤ (⌊q⌋ : ℚ) := by exact_mod_cast h0
    have hfl : (⌊q⌋ : ℚ) ≤ q := Int.floor_le q
    have hlt : q < ⌊q⌋ + 1 := Int.lt_floor_add_one q
    rw [abs_of_nonneg hq, abs_of_nonneg h0q]
    exact ⟨hfl, by linarith, mul_nonneg h0q hq⟩
  · have hle : -q ≤ (ISIZE_MAX : ℚ) := by rwa [abs_of_neg hq] at h
    rw [castIsize_eq_of_neg q hq hle]
    have h0 : (0 : Int) ≤ ⌊-q⌋ := Int.floor_nonneg.mpr (by linarith)
    have h0q : (0 : ℚ) ≤ (⌊-q⌋ : ℚ) := by exact_mod_cast h0
    have hfl : (⌊-q⌋ : ℚ) ≤ -q := Int.floor_le (-q)
    have hlt : -q < ⌊-q⌋ + 1 := Int.lt_floor_add_one (-q)
    have habs : |((-⌊-q⌋ : Int) : ℚ)| = (⌊-q⌋ : ℚ) := by
      push_cast
      rw [abs_neg, abs_of_nonneg h0q]
    rw [abs_of_neg hq, habs]
    refine ⟨hfl, by linarith, ?_⟩
    have hprod : (0 : ℚ) ≤ (⌊-q⌋ : ℚ) * (-q) := mul_nonneg h0q (by linarith)
    push_cast
    nlinarith

/-- C3, amended: the correction of line 274 is `k_factor * (score -
expected)` truncated toward zero (not rounded to nearest): for every
`k_factor`, `score` and `expected` with the product within the `isize`
range, the correction's magnitude never exceeds the real value's magnitude,
is within one of it, and the sign is preserved. -/
theorem c3_correction_truncates_toward_zero (k s e : ℚ)
    (h : |k * (s - e)| ≤ (ISIZE_MAX : ℚ)) :
    |(correctionOf k s e : ℚ)| ≤ |k * (s - e)| ∧
    |k * (s - e)| < |(correctionOf k s e : ℚ)| + 1 ∧
    0 ≤ (correctionOf k s e : ℚ) * (k * (s - e)) := by
  unfold correctionOf
  exact castIsize_trunc (k * (s - e)) h

/-- Witness for the amended C3 at the spec's own scenario `k_factor = 32`,
`score = 1`, `expected = 0`. -/
theorem c3_correction_truncates_toward_zero_witness :
    |(correctionOf 32 1 0 : ℚ)| ≤ |(32 : ℚ) * (1 - 0)| ∧
    |(32 : ℚ) * (1 - 0)| < |(correctionOf 32 1 0 : ℚ)| + 1 ∧
    0 ≤ (correctionOf 32 1 0 : ℚ) * ((32 : ℚ) * (1 - 0)) :=
  c3_correction_truncates_toward_zero 32 1 0 (by
    rw [ISIZE_MAX]
    push_cast
    rw [abs_of_nonneg (by norm_num)]
    norm_num)

/-- One loop iteration appends exactly one move to each history and folds
that turn's machine-computed payoff differential into the accumulator. -/
lemma matchStep_hist (w : Weights) (s : MatchState) :
    ∃ m1 m2, (matchStep w s).hist1 = s.hist1 ++ [m1] ∧
      (matchStep w s).hist2 = s.hist2 ++ [m2] ∧
      (matchStep w s).points =
        isizeWrap (s.points + isizeWrap
          (usizeToIsize (w.outcome m1 m2).1 - usizeToIsize (w.outcome m1 m2).2)) :=
  ⟨_, _, rfl, rfl, rfl⟩

/-- Wrapping is the identity on values already inside the `isize` range. -/
lemma isizeWrap_eq_self (z : Int) (h1 : -(2 ^ 63) ≤ z) (h2 : z < 2 ^ 63) :
    isizeWrap z = z := by
  unfold isizeWrap
  omega

/-- Wrapping the left summand before an addition changes nothing. -/
lemma isizeWrap_add_left (a b : Int) :
    isizeWrap (isizeWrap a + b) = isizeWrap (a + b) := by
  unfold isizeWrap
  omega

/-- Wrapping is idempotent. -/
lemma isizeWrap_isizeWrap (a : Int) : isizeWrap (isizeWrap a) = isizeWrap a := by
  unfold isizeWrap
  omega

/-- When the true per-turn differential fits in `isize`, the machine
computation `o1 as isize - o2 as isize` yields it exactly (the two cast
wraps cancel modulo `2^64`). -/
lemma isizeWrap_turn_diff (o1 o2 : Nat)
    (h1 : -(2 ^ 63) < (o1 : Int) - o2) (h2 : (o1 : Int) - o2 < 2 ^ 63) :
    isizeWrap (usizeToIsize o1 - usizeToIsize o2) = (o1 : Int) - o2 := by
  unfold isizeWrap usizeToIsize
  split_ifs <;> omega

/-- Each turn's payoff differential is bounded by `max_diff` in absolute
value (it is `0` on the symmetric outcomes and `±(dc.1 - dc.2)` on the mixed
ones). -/
lemma outcome_diff_bound (w : Weights) (a b : Choice) :
    |((w.outcome a b).1 : Int) - ((w.outcome a b).2 : Int)| ≤ (w.max_diff : Int) := by
  cases a <;> cases b <;>
    simp only [Weights.outcome, Weights.max_diff] <;> rw [abs_le] <;> omega

/-- Appending one simultaneous pair of moves adds its differential to
`diffSum`. -/
lemma diffSum_append (w : Weights) (h1 h2 : List Choice) (m1 m2 : Choice)
    (hlen : h1.length = h2.length) :
    diffSum w (h1 ++ [m1]) (h2 ++ [m2]) =
      diffSum w h1 h2 + (((w.outcome m1 m2).1 : Int) - ((w.outcome m1 m2).2 : Int)) := by
  unfold diffSum
  rw [List.zipWith_append _ _ _ _ _ hlen, List.sum_append]
  simp

/-- The accumulated differential of equal-length histories is bounded by the
number of turns times `max_diff`. -/
lemma diffSum_bound (w : Weights) (h1 h2 : List Choice) (hlen : h1.length = h2.length) :
    |diffSum w h1 h2| ≤ (h1.length : Int) * (w.max_diff : Int) := by
  induction h1 generalizing h2 with
  | nil => simp [diffSum]
  | cons a t ih =>
    cases h2 with
    | nil => simp at hlen
    | cons b t2 =>
      have hlen' : t.length = t2.length := by simpa using hlen
      have hd := outcome_diff_bound w a b
      have ht := ih t2 hlen'
      unfold diffSum at ht ⊢
      simp only [List.zipWith_cons_cons, List.sum_cons]
      have habs := abs_add
        (((w.outcome a b).1 : Int) - ((w.outcome a b).2 : Int))
        (List.zipWith (fun a b =>
          ((w.outcome a b).1 : Int) - ((w.outcome a b).2 : Int)) t t2).sum
      have hlen2 : ((a :: t).length : Int) = (t.length : Int) + 1 := by
        simp [List.length_cons]
      rw [hlen2]
      calc |((w.outcome a b).1 : Int) - ((w.outcome a b).2 : Int) +
            (List.zipWith (fun a b =>
              ((w.outcome a b).1 : Int) - ((w.outcome a b).2 : Int)) t t2).sum|
          ≤ _ + _ := habs
        _ ≤ (w.max_diff : Int) + (t.length : Int) * (w.max_diff : Int) :=
            add_le_add hd ht
        _ = ((t.length : Int) + 1) * (w.max_diff : Int) := by ring

/-- Loop invariant of the match: when the largest possible total
differential, `(turns so far + turns to go) * max_diff`, fits in `isize`,
every wrap in the accumulation is the identity — each iteration grows both
histories by one and the machine accumulator equals the exact accumulated
differential of the histories. -/
lemma matchRun_invariant (w : Weights) (n : Nat) (s : MatchState)
    (hlen : s.hist1.length = s.hist2.length)
    (hpts : s.points = diffSum w s.hist1 s.hist2)
    (hov : (s.hist1.length + n) * w.max_diff < 2 ^ 63) :
    (matchRun w s n).hist1.length = s.hist1.length + n ∧
    (matchRun w s n).hist2.length = s.hist2.length + n ∧
    (matchRun w s n).points =
      diffSum w (matchRun w s n).hist1 (matchRun w s n).hist2 := by
  induction n generalizing s with
  | zero => exact ⟨rfl, rfl, hpts⟩
  | succ n ih =>
    obtain ⟨m1, m2, e1, e2, e3⟩ := matchStep_hist w s
    have hlen1 : (matchStep w s).hist1.length = s.hist1.length + 1 := by
      rw [e1]; simp
    have hlen2 : (matchStep w s).hist2.length = s.hist2.length + 1 := by
      rw [e2]; simp
    have hlen' : (matchStep w s).hist1.length = (matchStep w s).hist2.length := by
      rw [hlen1, hlen2, hlen]
    have hmdn : w.max_diff ≤ (s.hist1.length + (n + 1)) * w.max_diff := by
      have h1 : 1 * w.max_diff ≤ (s.hist1.length + (n + 1)) * w.max_diff :=
        Nat.mul_le_mul_right _ (by omega)
      simpa using h1
    have hmdZ : (w.max_diff : Int) < 2 ^ 63 := by
      exact_mod_cast lt_of_le_of_lt hmdn hov
    have hd := outcome_diff_bound w m1 m2
    rw [abs_le] at hd
    have hturn : isizeWrap (usizeToIsize (w.outcome m1 m2).1 -
        usizeToIsize (w.outcome m1 m2).2) =
        ((w.outcome m1 m2).1 : Int) - ((w.outcome m1 m2).2 : Int) :=
      isizeWrap_turn_diff _ _ (by omega) (by omega)
    have hdsum : diffSum w (matchStep w s).hist1 (matchStep w s).hist2 =
        diffSum w s.hist1 s.hist2 +
          (((w.outcome m1 m2).1 : Int) - ((w.outcome m1 m2).2 : Int)) := by
      rw [e1, e2, diffSum_append w _ _ _ _ hlen]
    have hnew_bound := diffSum_bound w (matchStep w s).hist1 (matchStep w s).hist2 hlen'
    rw [hlen1] at hnew_bound
    have hcap : ((s.hist1.length + 1 : Nat) : Int) * (w.max_diff : Int) < 2 ^ 63 := by
      have h1 : (s.hist1.length + 1) * w.max_diff ≤
          (s.hist1.length + (n + 1)) * w.max_diff :=
        Nat.mul_le_mul_right _ (by omega)
      exact_mod_cast lt_of_le_of_lt h1 hov
    obtain ⟨hlo, hhi⟩ := abs_le.mp hnew_bound
    have hpts' : (matchStep w s).points =
        diffSum w (matchStep w s).hist1 (matchStep w s).hist2 := by
      rw [e3, hturn, hpts, ← hdsum]
      exact isizeWrap_eq_self _ (by linarith) (by linarith)
    have hov' : ((matchStep w s).hist1.length + n) * w.max_diff < 2 ^ 63 := by
      rw [hlen1]
      have heq : s.hist1.length + 1 + n = s.hist1.length + (n + 1) := by omega
      rw [heq]
      exact hov
    have hrec := ih (matchStep w s) hlen' hpts' hov'
    refine ⟨?_, ?_, hrec.2.2⟩
    · show (matchRun w (matchStep w s) n).hist1.length = s.hist1.length + (n + 1)
      rw [hrec.1, hlen1]; omega
    · show (matchRun w (matchStep w s) n).hist2.length = s.hist2.length + (n + 1)
      rw [hrec.2.1, hlen2]; omega

/-- Function `play` unfolded: the final machine accumulator divided by the
wrapped product `max_diff * turns`. -/
lemma play_eq (p1 p2 : PlayerFactory) (w : Weights) (n : Nat) (r : RngState) :
    play p1 p2 w n r =
      ((matchRun w (matchInit p1 p2 w r) n).points : ℚ) /
        (((w.max_diff * n) % 2 ^ 64 : Nat) : ℚ) := rfl

/-- C4, amended: for every pair of strategy kinds, every weights with
positive `max_diff`, every `turn_count ≥ 1` with `max_diff * turn_count ≤
isize::MAX` (so that no cast wrap, accumulator overflow or product overflow
occurs), and every rng, the match score is the accumulated signed per-turn
differential of the two histories divided by `max_diff * turn_count`, and it
lies in `[-1, 1]`. -/
theorem c4_play_score_normalized (p1 p2 : PlayerFactory) (w : Weights) (n : Nat)
    (r : RngState) (hmd : 0 < w.max_diff) (hn : 1 ≤ n)
    (hov : w.max_diff * n < 2 ^ 63) :
    play p1 p2 w n r =
      (diffSum w (matchRun w (matchInit p1 p2 w r) n).hist1
        (matchRun w (matchInit p1 p2 w r) n).hist2 : ℚ) /
        ((w.max_diff : ℚ) * (n : ℚ)) ∧
    -1 ≤ play p1 p2 w n r ∧ play p1 p2 w n r ≤ 1 := by
  obtain ⟨l1, l2, hp⟩ := matchRun_invariant w n (matchInit p1 p2 w r) rfl rfl
    (by
      have h0 : (matchInit p1 p2 w r).hist1.length = 0 := rfl
      rw [h0, Nat.zero_add, Nat.mul_comm]
      exact hov)
  have hi1 : (matchInit p1 p2 w r).hist1.length = 0 := rfl
  have hi2 : (matchInit p1 p2 w r).hist2.length = 0 := rfl
  have hlen1 : (matchRun w (matchInit p1 p2 w r) n).hist1.length = n := by
    rw [l1, hi1]; omega
  have hlen2 : (matchRun w (matchInit p1 p2 w r) n).hist2.length = n := by
    rw [l2, hi2]; omega
  have hmod : (w.max_diff * n) % 2 ^ 64 = w.max_diff * n :=
    Nat.mod_eq_of_lt (by omega)
  have hcast : (((w.max_diff * n) % 2 ^ 64 : Nat) : ℚ) =
      (w.max_diff : ℚ) * (n : ℚ) := by
    rw [hmod]; push_cast; ring
  have heq : play p1 p2 w n r =
      (diffSum w (matchRun w (matchInit p1 p2 w r) n).hist1
        (matchRun w (matchInit p1 p2 w r) n).hist2 : ℚ) /
        ((w.max_diff : ℚ) * (n : ℚ)) := by
    rw [play_eq, hp, hcast]
  have hD : (0 : ℚ) < (w.max_diff : ℚ) * (n : ℚ) := by
    have h1 : (0 : ℚ) < (w.max_diff : ℚ) := by exact_mod_cast hmd
    have h2 : (0 : ℚ) < (n : ℚ) := by exact_mod_cast hn
    positivity
  have hbound : |(matchRun w (matchInit p1 p2 w r) n).points| ≤
      (n : Int) * (w.max_diff : Int) := by
    have hb := diffSum_bound w (matchRun w (matchInit p1 p2 w r) n).hist1
      (matchRun w (matchInit p1 p2 w r) n).hist2 (by rw [hlen1, hlen2])
    rw [hlen1] at hb
    rw [hp]
    exact hb
  have habs : |play p1 p2 w n r| ≤ 1 := by
    rw [play_eq, hcast, abs_div, abs_of_pos hD]
    rw [div_le_one hD]
    have hq : |((matchRun w (matchInit p1 p2 w r) n).points : ℚ)| ≤
        (n : ℚ) * (w.max_diff : ℚ) := by
      rw [← Int.cast_abs]
      exact_mod_cast hbound
    linarith [hq]
  have hboth := abs_le.mp habs
  exact ⟨heq, hboth.1, hboth.2⟩

/-- Witness for the amended C4 with the default weights, Grim against
Pavlov, three turns. -/
theorem c4_play_score_normalized_witness :
    0 < Weights.default.max_diff ∧ 1 ≤ 3 ∧ Weights.default.max_diff * 3 < 2 ^ 63 ∧
    (play PlayerFactory.Grim PlayerFactory.Pavlov Weights.default 3 rng0 =
      (diffSum Weights.default
        (matchRun Weights.default
          (matchInit PlayerFactory.Grim PlayerFactory.Pavlov Weights.default rng0) 3).hist1
        (matchRun Weights.default
          (matchInit PlayerFactory.Grim PlayerFactory.Pavlov Weights.default rng0) 3).hist2 : ℚ) /
        ((Weights.default.max_diff : ℚ) * ((3 : Nat) : ℚ)) ∧
    -1 ≤ play PlayerFactory.Grim PlayerFactory.Pavlov Weights.default 3 rng0 ∧
    play PlayerFactory.Grim PlayerFactory.Pavlov Weights.default 3 rng0 ≤ 1) :=
  ⟨by decide, by decide, by decide,
    c4_play_score_normalized PlayerFactory.Grim PlayerFactory.Pavlov Weights.default
      3 rng0 (by decide) (by decide) (by decide)⟩

/-- A payoff configuration whose mixed-outcome payoff occupies bit 63 of a
`usize`. -/
def wBig : Weights :=
  { defect_defect := 0, defect_collab := (2 ^ 63, 0), collab_collab := 0 }

set_option maxRecDepth 20000 in
/-- C4, counterexample: at weights `dc = (2^63, 0)` — `max_diff = 2^63 > 0`
— and `turn_count = 1`, both in the claim's range, the `usize -> isize`
cast of the payoff wraps to `-2^63` and the returned score is `-1`, while
the accumulated differential divided by `max_diff * turn_count` is `+1`:
the claimed equality fails.  Only the defined casts wrap on this run, so
a debug build reaches the same `-1.0` without panicking. -/
theorem c4_counterexample :
    0 < wBig.max_diff ∧ 1 ≤ (1 : Nat) ∧
    play PlayerFactory.Defector PlayerFactory.Collaborator wBig 1 rng0 = -1 ∧
    (diffSum wBig
        (matchRun wBig (matchInit PlayerFactory.Defector
          PlayerFactory.Collaborator wBig rng0) 1).hist1
        (matchRun wBig (matchInit PlayerFactory.Defector
          PlayerFactory.Collaborator wBig rng0) 1).hist2 : ℚ) /
      ((wBig.max_diff : ℚ) * ((1 : Nat) : ℚ)) = 1 ∧
    (-1 : ℚ) ≠ 1 := by
  refine ⟨by decide, by decide, ?_, ?_, by norm_num⟩
  · have hpt : (matchRun wBig (matchInit PlayerFactory.Defector
        PlayerFactory.Collaborator wBig rng0) 1).points = -(2 ^ 63) := by decide
    have hden : (wBig.max_diff * 1) % 2 ^ 64 = 2 ^ 63 := by decide
    rw [play_eq, hpt, hden]
    push_cast
    norm_num
  · have hh1 : (matchRun wBig (matchInit PlayerFactory.Defector
        PlayerFactory.Collaborator wBig rng0) 1).hist1 = [Choice.Defect] := by decide
    have hh2 : (matchRun wBig (matchInit PlayerFactory.Defector
        PlayerFactory.Collaborator wBig rng0) 1).hist2 = [Choice.Collab] := by decide
    have hds : diffSum wBig [Choice.Defect] [Choice.Collab] = 2 ^ 63 := by decide
    have hmd : wBig.max_diff = 2 ^ 63 := by decide
    rw [hh1, hh2, hds, hmd]
    norm_num

/-- One turn of `Defector` against `Collaborator` at the default weights:
moves `Defect`/`Collab`, the accumulator folds in `+3`, agents and rng
unchanged. -/
lemma matchStep_def_collab (h1 h2 : List Choice) (pts : Int) (r : RngState) :
    matchStep Weights.default
      ⟨h1, h2, pts, Player.Defector, Player.Collaborator, r⟩ =
      ⟨h1 ++ [Choice.Defect], h2 ++ [Choice.Collab], isizeWrap (pts + 3),
        Player.Defector, Player.Collaborator, r⟩ := by
  have h3 : isizeWrap (usizeToIsize (3 : Nat) - usizeToIsize (0 : Nat)) = 3 := by decide
  simp only [matchStep, Player.play, Weights.default, Weights.outcome]
  rw [h3]

/-- The machine accumulator of a `Defector` versus `Collaborator` match at
the default weights is the two's-complement wrap of `3` points per turn. -/
lemma matchRun_def_collab (n : Nat) : ∀ (h1 h2 : List Choice) (pts : Int) (r : RngState),
    isizeWrap pts = pts →
    (matchRun Weights.default
      ⟨h1, h2, pts, Player.Defector, Player.Collaborator, r⟩ n).points
      = isizeWrap (pts + 3 * n) := by
  induction n with
  | zero =>
    intro h1 h2 pts r hp
    simp only [matchRun, Nat.cast_zero, mul_zero, add_zero]
    exact hp.symm
  | succ n ih =>
    intro h1 h2 pts r hp
    have hstep : matchRun Weights.default
        ⟨h1, h2, pts, Player.Defector, Player.Collaborator, r⟩ (n + 1) =
        matchRun Weights.default
          ⟨h1 ++ [Choice.Defect], h2 ++ [Choice.Collab], isizeWrap (pts + 3),
            Player.Defector, Player.Collaborator, r⟩ n := by
      rw [show matchRun Weights.default
        ⟨h1, h2, pts, Player.Defector, Player.Collaborator, r⟩ (n + 1) =
        matchRun Weights.default (matchStep Weights.default
          ⟨h1, h2, pts, Player.Defector, Player.Collaborator, r⟩) n from rfl,
        matchStep_def_collab]
    rw [hstep, ih _ _ _ _ (isizeWrap_isizeWrap _), isizeWrap_add_left]
    congr 1
    push_cast
    ring

/-- C5, amended: for every turn count `N ≥ 1` with `3 * N ≤ isize::MAX` (so
the accumulator never overflows) and every rng, `AlwaysDefect` versus
`AlwaysCollaborate` at the default weights scores exactly `+1`. -/
theorem c5_defector_vs_collaborator (n : Nat) (r : RngState) (hn : 1 ≤ n)
    (hov : 3 * n < 2 ^ 63) :
    play PlayerFactory.Defector PlayerFactory.Collaborator Weights.default n r = 1 := by
  have hinit : matchInit PlayerFactory.Defector PlayerFactory.Collaborator
      Weights.default r =
      ⟨[], [], 0, Player.Defector, Player.Collaborator, r⟩ := rfl
  have hpts := matchRun_def_collab n [] [] 0 r (by decide)
  rw [play_eq, hinit, hpts]
  have hmd : Weights.default.max_diff = 3 := rfl
  rw [hmd]
  have hw : isizeWrap (0 + 3 * (n : Int)) = 0 + 3 * (n : Int) :=
    isizeWrap_eq_self _ (by omega) (by omega)
  rw [hw]
  have hmod : (3 * n) % 2 ^ 64 = 3 * n := Nat.mod_eq_of_lt (by omega)
  rw [hmod]
  have hne : ((3 * n : Nat) : ℚ) ≠ 0 := by
    have h0 : (0 : Nat) < 3 * n := by omega
    exact_mod_cast Nat.pos_iff_ne_zero.mp h0
  rw [div_eq_one_iff_eq hne]
  push_cast
  ring

/-- Witness for the amended C5 at `N = 2`. -/
theorem c5_defector_vs_collaborator_witness :
    play PlayerFactory.Defector PlayerFactory.Collaborator Weights.default 2 rng0 = 1 :=
  c5_defector_vs_collaborator 2 rng0 (by decide) (by decide)

/-- C5, counterexample: at `N = 2^62` (in the claim's range `N ≥ 1`) the
accumulator reaches `3 * 2^62 > isize::MAX` and wraps to `-2^62` (in a
release build; a debug build panics at the overflowing turn), so the score
is `-1/3`, not the claimed `+1`. -/
theorem c5_counterexample :
    1 ≤ 2 ^ 62 ∧
    play PlayerFactory.Defector PlayerFactory.Collaborator Weights.default
      (2 ^ 62) rng0 = -(1 / 3) ∧
    (-(1 / 3) : ℚ) ≠ 1 := by
  refine ⟨by norm_num, ?_, by norm_num⟩
  have hinit : matchInit PlayerFactory.Defector PlayerFactory.Collaborator
      Weights.default rng0 =
      ⟨[], [], 0, Player.Defector, Player.Collaborator, rng0⟩ := rfl
  have hpts := matchRun_def_collab (2 ^ 62) [] [] 0 rng0 (by decide)
  rw [play_eq, hinit, hpts]
  have hmd : Weights.default.max_diff = 3 := rfl
  rw [hmd]
  have hw : isizeWrap (0 + 3 * ((2 ^ 62 : Nat) : Int)) = -(2 ^ 62) := by decide
  rw [hw]
  have hmod : (3 * 2 ^ 62) % 2 ^ 64 = 3 * 2 ^ 62 := by norm_num
  rw [hmod]
  push_cast
  norm_num

/-- A history contains a defection exactly when its prefix without the last
move does, or the last move is a defection. -/
lemma defect_mem_iff (l : List Choice) :
    Choice.Defect ∈ l ↔
      (Choice.Defect ∈ l.take (l.length - 1) ∨ l.getLast? = some Choice.Defect) := by
  rcases eq_or_ne l [] with h | h
  · subst h; simp
  · conv_lhs => rw [← List.dropLast_append_getLast h]
    rw [List.mem_append, List.mem_singleton, List.dropLast_eq_take,
      List.getLast?_eq_getLast l h]
    simp [eq_comm]

/-- The Grim flag update of lib.rs lines 178-180: starting from "the opponent
defected before its last move", checking the last move yields "the opponent
has ever defected". -/
lemma grim_flag_update (l : List Choice) :
    (if l.getLast? = some Choice.Defect then true
      else decide (Choice.Defect ∈ l.take (l.length - 1)))
      = decide (Choice.Defect ∈ l) := by
  by_cases hl : l.getLast? = some Choice.Defect
  · rw [if_pos hl]
    have hm : Choice.Defect ∈ l := (defect_mem_iff l).mpr (Or.inr hl)
    simp [hm]
  · rw [if_neg hl]
    have hiff : Choice.Defect ∈ l.take (l.length - 1) ↔ Choice.Defect ∈ l := by
      rw [defect_mem_iff l]
      simp [hl]
    exact decide_eq_decide.mpr hiff

/-- One turn of a match whose first agent is Grim with flag `d`: the new flag
folds in the opponent's last move, and Grim's move follows the new flag. -/
lemma grim_matchStep (w : Weights) (s : MatchState) (d : Bool)
    (hp1 : s.p1 = Player.Grim d) :
    (matchStep w s).p1 = Player.Grim
        (if s.hist2.getLast? = some Choice.Defect then true else d) ∧
    (matchStep w s).hist1 = s.hist1 ++
        [if (if s.hist2.getLast? = some Choice.Defect then true else d)
          then Choice.Defect else Choice.Collab] ∧
    ∃ m2, (matchStep w s).hist2 = s.hist2 ++ [m2] := by
  unfold matchStep
  rw [hp1]
  exact ⟨rfl, rfl, _, rfl⟩

/-- Loop invariant for Grim as the first player: its flag always records
whether the opponent has defected among the moves Grim has seen, and each of
its moves is `Collab` exactly when no defection precedes that turn. -/
lemma grim_matchRun (w : Weights) (n : Nat) :
    ∀ s : MatchState,
    s.hist1.length = s.hist2.length →
    s.p1 = Player.Grim (decide (Choice.Defect ∈ s.hist2.take (s.hist2.length - 1))) →
    (∀ i < s.hist1.length,
      (s.hist1.getD i Choice.Defect = Choice.Collab ↔
        Choice.Defect ∉ s.hist2.take i)) →
    (matchRun w s n).hist1.length = s.hist1.length + n ∧
    (matchRun w s n).hist2.length = s.hist2.length + n ∧
    (matchRun w s n).p1 = Player.Grim (decide (Choice.Defect ∈
      (matchRun w s n).hist2.take ((matchRun w s n).hist2.length - 1))) ∧
    ∀ i < (matchRun w s n).hist1.length,
      ((matchRun w s n).hist1.getD i Choice.Defect = Choice.Collab ↔
        Choice.Defect ∉ (matchRun w s n).hist2.take i) := by
  induction n with
  | zero =>
    intro s h1 h2 h3
    exact ⟨rfl, rfl, h2, h3⟩
  | succ n ih =>
    intro s h1 h2 h3
    obtain ⟨hp1, hh1, m2, hh2⟩ := grim_matchStep w s _ h2
    rw [grim_flag_update] at hp1 hh1
    have hl1 : (matchStep w s).hist1.length = s.hist1.length + 1 := by rw [hh1]; simp
    have hl2 : (matchStep w s).hist2.length = s.hist2.length + 1 := by rw [hh2]; simp
    have hflag : (matchStep w s).p1 = Player.Grim (decide (Choice.Defect ∈
        (matchStep w s).hist2.take ((matchStep w s).hist2.length - 1))) := by
      rw [hp1, hh2]
      simp [List.length_append, Nat.add_sub_cancel, List.take_left]
    have hmoves : ∀ i < (matchStep w s).hist1.length,
        ((matchStep w s).hist1.getD i Choice.Defect = Choice.Collab ↔
          Choice.Defect ∉ (matchStep w s).hist2.take i) := by
      intro i hi
      rw [hl1] at hi
      rw [hh1, hh2]
      rcases Nat.lt_or_ge i s.hist1.length with hlt | hge
      · rw [List.getD_append _ _ _ _ hlt,
          List.take_append_of_le_length (by omega)]
        exact h3 i hlt
      · have hieq : i = s.hist1.length := by omega
        subst hieq
        have hget : (s.hist1 ++
            [if decide (Choice.Defect ∈ s.hist2) then Choice.Defect
              else Choice.Collab]).getD s.hist1.length Choice.Defect =
            (if decide (Choice.Defect ∈ s.hist2) then Choice.Defect
              else Choice.Collab) := by
          simp [List.getD_eq_getElem?_getD]
        rw [hget, h1, List.take_left]
        by_cases hmem : Choice.Defect ∈ s.hist2
        · simp [hmem]
        · simp [hmem]
    have hrec := ih (matchStep w s) (by rw [hl1, hl2, h1]) hflag hmoves
    refine ⟨?_, ?_, hrec.2.2.1, hrec.2.2.2⟩
    · show (matchRun w (matchStep w s) n).hist1.length = s.hist1.length + (n + 1)
      rw [hrec.1, hl1]; omega
    · show (matchRun w (matchStep w s) n).hist2.length = s.hist2.length + (n + 1)
      rw [hrec.2.1, hl2]; omega

/-- C6: within a single match with Grim as the first player — against any
opponent kind, any weights, any turn count and any rng — Grim's move on turn
`i` (0-based) is `Collab` exactly when the opponent's history before that
turn contains no `Defect`, and its final flag records exactly whether the
opponent defected among the moves Grim has seen (the flag is monotone: once
the opponent's past contains a `Defect` it does so on every later turn, so
Grim defects on every turn thereafter). -/
theorem c6_grim_triggers_permanently (p2 : PlayerFactory) (w : Weights) (n : Nat)
    (r : RngState) :
    (matchRun w (matchInit PlayerFactory.Grim p2 w r) n).hist1.length = n ∧
    (matchRun w (matchInit PlayerFactory.Grim p2 w r) n).hist2.length = n ∧
    (matchRun w (matchInit PlayerFactory.Grim p2 w r) n).p1 =
      Player.Grim (decide (Choice.Defect ∈
        (matchRun w (matchInit PlayerFactory.Grim p2 w r) n).hist2.take
          ((matchRun w (matchInit PlayerFactory.Grim p2 w r) n).hist2.length - 1))) ∧
    ∀ i < n,
      ((matchRun w (matchInit PlayerFactory.Grim p2 w r) n).hist1.getD i Choice.Defect
          = Choice.Collab ↔
        Choice.Defect ∉
          (matchRun w (matchInit PlayerFactory.Grim p2 w r) n).hist2.take i) := by
  have hrec := grim_matchRun w n (matchInit PlayerFactory.Grim p2 w r) rfl rfl
    (by intro i hi; exact absurd hi (Nat.not_lt_zero i))
  have hi1 : (matchInit PlayerFactory.Grim p2 w r).hist1.length = 0 := rfl
  have hi2 : (matchInit PlayerFactory.Grim p2 w r).hist2.length = 0 := rfl
  have hlen1 : (matchRun w (matchInit PlayerFactory.Grim p2 w r) n).hist1.length = n := by
    rw [hrec.1, hi1]; omega
  have hlen2 : (matchRun w (matchInit PlayerFactory.Grim p2 w r) n).hist2.length = n := by
    rw [hrec.2.1, hi2]; omega
  refine ⟨hlen1, hlen2, hrec.2.2.1, ?_⟩
  intro i hi
  exact hrec.2.2.2 i (by rw [hlen1]; exact hi)

/-- Witness for C6: Grim against AlwaysDefect over three turns, read at the
third turn — the opponent defected earlier, so Grim's move is not `Collab`. -/
theorem c6_grim_triggers_permanently_witness :
    ((matchRun Weights.default
        (matchInit PlayerFactory.Grim PlayerFactory.Defector Weights.default rng0)
        3).hist1.getD 2 Choice.Defect = Choice.Collab ↔
      Choice.Defect ∉
        (matchRun Weights.default
          (matchInit PlayerFactory.Grim PlayerFactory.Defector Weights.default rng0)
          3).hist2.take 2) :=
  (c6_grim_triggers_permanently PlayerFactory.Defector Weights.default 3 rng0).2.2.2
    2 (by decide)

/-- The saturating add never leaves the representable `usize` range. -/
lemma saturatingAddSigned_le (a : Nat) (c : Int) :
    saturatingAddSigned a c ≤ USIZE_MAX := by
  unfold saturatingAddSigned USIZE_MAX
  omega

/-- List `getD` after `set` at a different index is unchanged. -/
lemma getD_set_ne {α : Type} (l : List α) (i j : Nat) (a d : α) (h : i ≠ j) :
    (l.set i a).getD j d = l.getD j d := by
  rw [List.getD_eq_getElem?_getD, List.getElem?_set_ne h, ← List.getD_eq_getElem?_getD]

/-- List `getD` after `set` at the same in-bounds index is the new element. -/
lemma getD_set_eq {α : Type} (l : List α) (i : Nat) (a d : α) (h : i < l.length) :
    (l.set i a).getD i d = a := by
  rw [List.getD_eq_getElem?_getD, List.getElem?_set_self h]
  rfl

/-- The rejection-sampling loop only returns an index that is in range and
different from the first one. -/
lemma drawDistinct_spec (n i1 : Nat) (hn : 0 < n) :
    ∀ (fuel : Nat) (r : RngState) (i2 : Nat) (r2 : RngState),
      drawDistinct n i1 r fuel = some (i2, r2) → i2 < n ∧ i2 ≠ i1 := by
  intro fuel
  induction fuel with
  | zero => intro r i2 r2 h; exact absurd h (by simp [drawDistinct])
  | succ fuel ih =>
    intro r i2 r2 h
    unfold drawDistinct at h
    by_cases he : (r.genRange n).1 = i1
    · rw [if_pos he] at h
      exact ih _ _ _ h
    · rw [if_neg he] at h
      have hpair : (r.genRange n).1 = i2 ∧ (r.genRange n).2 = r2 := by
        simpa [Prod.ext_iff] using h
      refine ⟨?_, ?_⟩
      · rw [← hpair.1]
        exact Nat.mod_lt _ hn
      · rw [← hpair.1]
        exact he


/-- Case analysis of a returned pool step: either the no-op branch fired, or
two distinct in-range entries were selected and only their ratings were
rewritten (to values inside the `usize` range), the kinds being copied from
the selected entries. -/
lemma EloPool.play_some_cases (corr : Nat → Nat → ℚ → Int) (pool : EloPool)
    (r : RngState) (fuel : Nat) (pool' : EloPool) (r' : RngState)
    (h : EloPool.play corr pool r fuel = some (pool', r')) :
    (pool.players.length < 2 ∧ pool' = pool) ∨
    (2 ≤ pool.players.length ∧ ∃ i1 i2 v1 v2,
      i1 < pool.players.length ∧ i2 < pool.players.length ∧ i1 ≠ i2 ∧
      v1 ≤ USIZE_MAX ∧ v2 ≤ USIZE_MAX ∧
      pool'.players = (pool.players.set i1
          ((pool.players.getD i1 (PlayerFactory.Defector, 0)).1, v1)).set i2
          ((pool.players.getD i2 (PlayerFactory.Defector, 0)).1, v2) ∧
      pool'.weights = pool.weights ∧ pool'.scale = pool.scale ∧
      pool'.k_factor = pool.k_factor) := by
  by_cases hlen : pool.players.length < 2
  · left
    refine ⟨hlen, ?_⟩
    unfold EloPool.play at h
    rw [if_pos hlen] at h
    have h2 := (Option.some.injEq _ _).mp h
    exact ((Prod.mk.injEq _ _ _ _).mp h2).1.symm
  · right
    refine ⟨by omega, ?_⟩
    have hn : 0 < pool.players.length := by omega
    simp only [EloPool.play, if_neg hlen] at h
    cases hdd : drawDistinct pool.players.length (r.genRange pool.players.length).1
        (r.genRange pool.players.length).2 fuel with
    | none =>
      rw [hdd] at h
      exact absurd h (by simp)
    | some pr =>
      obtain ⟨i2, r2⟩ := pr
      rw [hdd] at h
      simp only [Option.some.injEq, Prod.mk.injEq] at h
      obtain ⟨hpool, hrng⟩ := h
      subst hpool
      have hi1 : (r.genRange pool.players.length).1 < pool.players.length :=
        Nat.mod_lt _ hn
      have hi2 := drawDistinct_spec pool.players.length
        (r.genRange pool.players.length).1 hn fuel
        (r.genRange pool.players.length).2 i2 r2 hdd
      exact ⟨(r.genRange pool.players.length).1, i2, _, _, hi1, hi2.1,
        hi2.2.symm, saturatingAddSigned_le _ _, saturatingAddSigned_le _ _,
        rfl, rfl, rfl, rfl⟩

/-- A single returned pool step keeps every rating in the `usize` range. -/
lemma play_preserves_validRatings (corr : Nat → Nat → ℚ → Int) (pool : EloPool)
    (r : RngState) (fuel : Nat) (pool' : EloPool) (r' : RngState)
    (h : EloPool.play corr pool r fuel = some (pool', r'))
    (hv : validRatings pool) : validRatings pool' := by
  rcases EloPool.play_some_cases corr pool r fuel pool' r' h with
    ⟨_, rfl⟩ | ⟨_, i1, i2, v1, v2, _, _, _, hv1, hv2, hps, _⟩
  · exact hv
  · intro e he
    rw [hps] at he
    rcases List.mem_or_eq_of_mem_set he with he2 | rfl
    · rcases List.mem_or_eq_of_mem_set he2 with he3 | rfl
      · exact hv e he3
      · exact hv1
    · exact hv2

/-- C7: along every sequence of pool steps that return (for any correction
oracle, rng and fuels), every rating stays within the representable `usize`
bounds `[0, 2^64 - 1]` — the saturating update clamps instead of wrapping. -/
theorem c7_ratings_stay_representable (corr : Nat → Nat → ℚ → Int)
    (pool : EloPool) (r : RngState) (fs : List Nat) (pool' : EloPool)
    (h : stepSeqPool corr pool r fs = some pool') (hv : validRatings pool) :
    validRatings pool' := by
  induction fs generalizing pool r with
  | nil =>
    unfold stepSeqPool stepSeq at h
    simp only [Option.map_some', Option.some.injEq] at h
    rwa [← h]
  | cons fuel rest ih =>
    unfold stepSeqPool stepSeq at h
    cases hp : EloPool.play corr pool r fuel with
    | none => rw [hp] at h; exact absurd h (by simp)
    | some pr =>
      obtain ⟨p, r2⟩ := pr
      rw [hp] at h
      exact ih p r2 h (play_preserves_validRatings corr pool r fuel p r2 hp hv)

/-- Witness for C7: two concrete steps on a two-entry pool (which end back at
the starting ratings). -/
theorem c7_ratings_stay_representable_witness :
    stepSeqPool corr0 pool0 rng0 [9, 9] = some pool0 ∧ validRatings pool0 :=
  ⟨by decide,
    c7_ratings_stay_representable corr0 pool0 rng0 [9, 9] pool0 (by decide)
      (by unfold validRatings; decide)⟩

/-- C10: every returned pool step preserves the entry count, every entry's
strategy kind and position, and there are two selected indices outside of
which every entry (rating included) is exactly unchanged. -/
theorem c10_step_frame (corr : Nat → Nat → ℚ → Int) (pool : EloPool)
    (r : RngState) (fuel : Nat) (pool' : EloPool)
    (h : stepPool corr pool r fuel = some pool') :
    pool'.players.length = pool.players.length ∧
    (∀ j, (pool'.players.getD j (PlayerFactory.Defector, 0)).1 =
          (pool.players.getD j (PlayerFactory.Defector, 0)).1) ∧
    ∃ i1 i2, i1 ≠ i2 ∧ ∀ j, j ≠ i1 → j ≠ i2 →
      pool'.players.getD j (PlayerFactory.Defector, 0) =
        pool.players.getD j (PlayerFactory.Defector, 0) := by
  unfold stepPool at h
  cases hp : EloPool.play corr pool r fuel with
  | none => rw [hp] at h; exact absurd h (by simp)
  | some pr =>
    obtain ⟨q, r'⟩ := pr
    rw [hp] at h
    simp only [Option.map_some', Option.some.injEq] at h
    subst h
    rcases EloPool.play_some_cases corr pool r fuel q r' hp with
      ⟨_, rfl⟩ | ⟨_, i1, i2, v1, v2, hi1, hi2, hne, _, _, hps, _⟩
    · exact ⟨rfl, fun _ => rfl, 0, 1, by decide, fun _ _ _ => rfl⟩
    · refine ⟨?_, ?_, i1, i2, hne, ?_⟩
      · rw [hps, List.length_set, List.length_set]
      · intro j
        rw [hps]
        rcases eq_or_ne j i2 with rfl | hj2
        · rw [getD_set_eq _ _ _ _ (by rwa [List.length_set])]
        · rw [getD_set_ne _ _ _ _ _ (Ne.symm hj2)]
          rcases eq_or_ne j i1 with rfl | hj1
          · rw [getD_set_eq _ _ _ _ hi1]
          · rw [getD_set_ne _ _ _ _ _ (Ne.symm hj1)]
      · intro j hj1 hj2
        rw [hps, getD_set_ne _ _ _ _ _ (Ne.symm hj2), getD_set_ne _ _ _ _ _ (Ne.symm hj1)]

/-- Witness for C10: one concrete step on the two-entry default pool. -/
theorem c10_step_frame_witness :
    (stepPool corr0 pool0 rng0 9).isSome = true ∧
    ∀ pool', stepPool corr0 pool0 rng0 9 = some pool' →
      pool'.players.length = pool0.players.length :=
  ⟨by decide, fun pool' h => (c10_step_frame corr0 pool0 rng0 9 pool' h).1⟩
